import Mathlib

/-!
Verification development for the graphgen Klemm graph generator.

The repository's `klemm_graph_generator.cpp` is a Python binding layer: it
parses the six parameters, calls `build_network_klemm` (declared in
`benchm.hpp`, which supplies the growth and weight-assignment core), and
marshals the resulting adjacency structure `Eout`
(a `deque` of `set` of `int`), member list and weight map
(a `deque` of `map` from `int` to `double`) into numpy arrays and tuples.

The embedding below models:
  - a C++ `std::set` of ints as a strictly sorted `List ℕ`;
  - a C++ `std::map` from int to double as an association `List (ℕ × ℚ)`
    (doubles carried exactly as rationals);
  - `std::deque` as `List`;
  - the `NPY_FLOAT32` store `data[i] = static_cast<npy_float32>(w)` as the
    IEEE-754 single-precision round-to-nearest-even function `roundF32`;
  - `std::map::at` throwing `std::out_of_range` (and deque subscripting out
    of range) as an `Option` returning `none`;
  - the growth/weight core, whose source `benchm.hpp` is not in the
    repository snapshot, from the specification text (each such definition
    carries a doc comment starting with `Modelled from the spec:`).
-/

/-- The error taxonomy of the pipeline as described by the specification:
`InvalidParameter` for out-of-range input rejected before growth,
`DegenerateInput` for topologies admitting no valid weight assignment, and
`KeyNotFound` modelling the exception a failed `std::map::at` lookup would
raise in the marshalling layer. -/
inductive GraphgenError where
  | InvalidParameter : GraphgenError
  | DegenerateInput : GraphgenError
  | KeyNotFound : GraphgenError
deriving DecidableEq

/-- The edge rows emitted for the suffix of `Eout` that starts at tail
index `t`: the C++ fill loop of `ConvertEdgeDequeToNumpyArray` walks tails
in order and, for each tail, the heads of its set in order, emitting the
row `(tail, head)`. -/
def edgeRowsFrom (t : ℕ) : List (List ℕ) → List (ℕ × ℕ)
  | [] => []
  | hs :: rest => hs.map (fun h => (t, h)) ++ edgeRowsFrom (t + 1) rest

/-- Embedding of `ConvertEdgeDequeToNumpyArray`: the Ex2 numpy edge array,
as the list of its rows `(tail, head)`, obtained by traversing `Eout`
tail by tail and head by head. -/
def ConvertEdgeDequeToNumpyArray (Eout : List (List ℕ)) : List (ℕ × ℕ) :=
  edgeRowsFrom 0 Eout

/-- The edge-counting loop shared by both converters: the total number of
`(tail, head)` entries held in `Eout`. -/
def numEdges (Eout : List (List ℕ)) : ℕ :=
  (Eout.map List.length).sum

/-- Embedding of the lookup `Wout[tail].at(head)`: deque subscripting
followed by `std::map::at`; a missing tail entry or a missing key is a
failure (out-of-range access respectively a thrown `std::out_of_range`). -/
def lookupWeight (Wout : List (List (ℕ × ℚ))) (r : ℕ × ℕ) : Option ℚ :=
  match Wout.get? r.1 with
  | none => none
  | some m => m.lookup r.2

/-- The weight-array fill loop of `ConvertWeightMapToNumpyArray`, walking
the edge rows in order and looking each one up in `Wout`; the first failed
lookup aborts the whole conversion (the C++ exception propagates). -/
def weightsGo (Wout : List (List (ℕ × ℚ))) : List (ℕ × ℕ) → Option (List ℚ)
  | [] => some []
  | r :: rs =>
    match lookupWeight Wout r, weightsGo Wout rs with
    | some w, some ws => some (w :: ws)
    | _, _ => none

/-- Round-half-to-even of a rational to an integer, the tie-breaking rule
of IEEE-754 round-to-nearest. -/
def rhe (x : ℚ) : ℤ :=
  if x - Int.floor x < 1 / 2 then Int.floor x
  else if (1 : ℚ) / 2 < x - Int.floor x then Int.floor x + 1
  else if Int.floor x % 2 = 0 then Int.floor x else Int.floor x + 1

/-- The binary exponent of the unit in the last place used when rounding a
positive magnitude `a` to single precision: 23 bits below the leading bit
for normal values, clamped at `2 ^ (-149)` (the smallest positive
denormal) once the value falls into the denormal range. -/
def f32scale (a : ℚ) : ℤ :=
  max (Int.log 2 a - 23) (-149)

/-- Round a positive magnitude to the nearest single-precision value
(round-to-nearest, ties to even). -/
def roundF32pos (a : ℚ) : ℚ :=
  (rhe (a / (2 : ℚ) ^ f32scale a) : ℚ) * (2 : ℚ) ^ f32scale a

/-- Embedding of `static_cast<npy_float32>` applied to a double held
exactly as a rational: IEEE-754 narrowing to single precision under the
default round-to-nearest-even mode. Exponent overflow to infinity is not
modelled; it is irrelevant in the value ranges considered here. -/
def roundF32 (q : ℚ) : ℚ :=
  if q = 0 then 0
  else if q < 0 then -(roundF32pos (-q)) else roundF32pos q

/-- Embedding of `ConvertWeightMapToNumpyArray`: the 1-dimensional
`NPY_FLOAT32` numpy weight array, as the list of its entries, obtained by
traversing `Eout` in the same tail-then-head order as the edge array and
storing the single-precision cast of `Wout[tail].at(head)`; `none` models
the exception escaping from a failed lookup. -/
def ConvertWeightMapToNumpyArray (Wout : List (List (ℕ × ℚ)))
    (Eout : List (List ℕ)) : Option (List ℚ) :=
  Option.map (fun ws => ws.map roundF32)
    (weightsGo Wout (ConvertEdgeDequeToNumpyArray Eout))

/-- Embedding of `ConvertMemberDequeToTuple`: the nested tuple of
community labels is a per-node, per-label copy of `member_list`. -/
def ConvertMemberDequeToTuple (member_list : List (List ℕ)) : List (List ℕ) :=
  member_list.map (fun node => node.map (fun c => c))

/-- Modelled from the spec: the explicitly threaded pseudo-random
generator state (design note: a seeded generator object passed through
growth and weighting, never ambient state), as a linear congruential
step. -/
def lcg (s : ℕ) : ℕ :=
  (1103515245 * s + 12345) % 2147483648

/-- Modelled from the spec: the state evolved by the Network Grower —
the adjacency structure `Eout` (each edge stored once, under its smaller
endpoint), the per-node community membership lists, the bounded active
set, and the generator state. -/
structure GrowState where
  eout : List (List ℕ)
  members : List (List ℕ)
  active : List ℕ
  rng : ℕ

/-- Modelled from the spec: initialization of the Network Grower — one
seed clique of `clique_size` nodes, fully interconnected, all placed in
the active set and all carrying community label `0`; `Eout` already holds
one row per eventual node. -/
def seedCliqueState (num_nodes clique_size seed : ℕ) : GrowState :=
  ⟨(List.range num_nodes).map (fun i =>
      if i < clique_size then (List.range clique_size).filter (fun j => decide (i < j))
      else []),
   (List.range clique_size).map (fun _ => [0]),
   List.range clique_size,
   lcg seed⟩

/-- Modelled from the spec: the degree of node `u` in the half-stored
adjacency structure (heads of `u`'s own row plus occurrences of `u` as a
head in other rows). -/
def degreeOf (eout : List (List ℕ)) (u : ℕ) : ℕ :=
  (eout.getD u []).length +
    (eout.map (fun hs => if hs.contains u then 1 else 0)).sum

/-- Modelled from the spec: the current neighborhood of node `u`. -/
def neighborsOf (eout : List (List ℕ)) (u : ℕ) : List ℕ :=
  eout.getD u [] ++
    (List.range eout.length).filter (fun t => (eout.getD t []).contains u)

/-- Insert into a strictly sorted list, keeping the `std::set` ordering
and uniqueness. -/
def insertSorted (b : ℕ) : List ℕ → List ℕ
  | [] => [b]
  | x :: xs =>
    if b < x then b :: x :: xs
    else if b = x then x :: xs
    else x :: insertSorted b xs

/-- Modelled from the spec: connect two distinct nodes, storing the edge
once under its smaller endpoint; a pair already connected is skipped (the
set insert is a no-op). -/
def addEdge (eout : List (List ℕ)) (u v : ℕ) : List (List ℕ) :=
  if u = v then eout
  else eout.set (min u v) (insertSorted (max u v) (eout.getD (min u v) []))

/-- Modelled from the spec: connect all pairs within a newly formed
clique, skipping pairs already connected. -/
def addCliqueEdges (eout : List (List ℕ)) : List ℕ → List (List ℕ)
  | [] => eout
  | x :: xs => addCliqueEdges (xs.foldl (fun acc y => addEdge acc x y) eout) xs

/-- Walk a cumulative-weight table, returning the index selected by the
random draw `r`. -/
def weightedPickAux : List ℕ → ℕ → ℕ → ℕ
  | [], _, i => i
  | w :: ws, r, i => if r < w then i else weightedPickAux ws (r - w) (i + 1)

/-- Modelled from the spec: the linkage-controlled selection policy — a
degree-proportional draw from the pool when the linkage draw falls below
`clique_linkage`, a uniform draw otherwise. -/
def selectByPolicy (clique_linkage : ℚ) (eout : List (List ℕ))
    (pool : List ℕ) (r1 r2 : ℕ) : ℕ :=
  if ((r1 % 1024 : ℕ) : ℚ) / 1024 < clique_linkage then
    pool.getD
      (weightedPickAux (pool.map (fun u => degreeOf eout u + 1))
        (r2 % max (pool.map (fun u => degreeOf eout u + 1)).sum 1) 0) 0
  else pool.getD (r2 % max pool.length 1) 0

/-- Modelled from the spec: the eviction policy — higher `clique_linkage`
biases eviction toward lower-degree members (preserving hubs), lower
linkage evicts uniformly; returns the index of the evicted member. -/
def evictIndex (clique_linkage : ℚ) (eout : List (List ℕ))
    (pool : List ℕ) (r1 r2 : ℕ) : ℕ :=
  if ((r1 % 1024 : ℕ) : ℚ) / 1024 < clique_linkage then
    weightedPickAux
      (pool.map (fun u => (pool.map (degreeOf eout)).foldl max 0 + 1 - degreeOf eout u))
      (r2 % max (pool.map
        (fun u => (pool.map (degreeOf eout)).foldl max 0 + 1 - degreeOf eout u)).sum 1) 0
  else r2 % max pool.length 1

/-- Remove the element at position `j`. -/
def removeAt (l : List ℕ) (j : ℕ) : List ℕ :=
  l.take j ++ l.drop (j + 1)

/-- Modelled from the spec: append one community label to a node's
member list — a node can belong to several cliques, so labels
accumulate as an explicit set-valued label per node. -/
def appendLabel (members : List (List ℕ)) (v cid : ℕ) : List (List ℕ) :=
  members.set v (members.getD v [] ++ [cid])

/-- Modelled from the spec: one step of the growth loop for node `i` —
select an attachment anchor from the active set by the linkage policy,
form a new clique of node `i`, the anchor and `clique_size - 2` further
nodes drawn from the anchor's neighborhood (supplemented from the active
set), connect all its pairs, record the new clique's identifier as node
`i`'s community label while the other clique members receive the new
identifier as an additional label and retain their prior ones (the
overlapping-community structure), insert `i` into the active set and
evict one member when the bounded capacity is exceeded. -/
def growStep (clique_size : ℕ) (clique_linkage : ℚ) (st : GrowState)
    (i : ℕ) : GrowState :=
  let r1 := lcg st.rng
  let r2 := lcg r1
  let anchor := selectByPolicy clique_linkage st.eout st.active r1 r2
  let pool := ((neighborsOf st.eout anchor ++ st.active).dedup).filter
    (fun v => decide (v ≠ i ∧ v ≠ anchor))
  let cid := i + 1 - clique_size
  let clique := i :: anchor :: pool.take (clique_size - 2)
  let eout1 := addCliqueEdges st.eout clique
  let members1 := ((anchor :: pool.take (clique_size - 2)).foldl
    (fun ms v => appendLabel ms v cid) st.members) ++ [[cid]]
  let active1 := st.active ++ [i]
  let r3 := lcg r2
  let r4 := lcg r3
  if clique_size < active1.length then
    ⟨eout1, members1, removeAt active1 (evictIndex clique_linkage eout1 active1 r3 r4), r4⟩
  else ⟨eout1, members1, active1, r4⟩

/-- Modelled from the spec: the Network Grower — seed clique
initialization followed by the growth loop over node indices
`clique_size` to `num_nodes - 1`. -/
def grow (num_nodes clique_size : ℕ) (clique_linkage : ℚ) (seed : ℕ) :
    GrowState :=
  (List.range (num_nodes - clique_size)).foldl
    (fun st j => growStep clique_size clique_linkage st (clique_size + j))
    (seedCliqueState num_nodes clique_size seed)

/-- Modelled from the spec: the edges incident to node `u`, as rows of the
edge list. -/
def incidentEdges (eout : List (List ℕ)) (u : ℕ) : List (ℕ × ℕ) :=
  (ConvertEdgeDequeToNumpyArray eout).filter (fun r => decide (r.1 = u ∨ r.2 = u))

/-- Modelled from the spec: whether the two endpoints share a community
label. -/
def sharesCommunity (members : List (List ℕ)) (v w : ℕ) : Bool :=
  (members.getD v []).any (fun c => (members.getD w []).contains c)

/-- Modelled from the spec: the intra-community edges incident to `u`. -/
def intraEdges (eout members : List (List ℕ)) (u : ℕ) : List (ℕ × ℕ) :=
  (incidentEdges eout u).filter (fun r => sharesCommunity members r.1 r.2)

/-- Modelled from the spec: the inter-community edges incident to `u`. -/
def interEdges (eout members : List (List ℕ)) (u : ℕ) : List (ℕ × ℕ) :=
  (incidentEdges eout u).filter (fun r => !(sharesCommunity members r.1 r.2))

/-- The sum of the base magnitudes over a list of edges. -/
def baseSum (base : ℕ × ℕ → ℚ) (l : List (ℕ × ℕ)) : ℚ :=
  (l.map base).sum

/-- Modelled from the spec: the per-node rescale step of the Weight
Assigner — node `u`'s local weight for an incident edge `e` scales the
base magnitudes so that the fraction of `u`'s total incident weight
carried by inter-community edges equals `beta` exactly, and the fraction
carried by intra-community edges equals `1 - beta`. -/
def localWeight (eout members : List (List ℕ)) (beta : ℚ)
    (base : ℕ × ℕ → ℚ) (u : ℕ) (e : ℕ × ℕ) : ℚ :=
  if sharesCommunity members e.1 e.2 then
    base e * (1 - beta) * baseSum base (incidentEdges eout u) /
      baseSum base (intraEdges eout members u)
  else
    base e * beta * baseSum base (incidentEdges eout u) /
      baseSum base (interEdges eout members u)

/-- Modelled from the spec: the deterministic symmetric resolution rule
for an edge shared by two endpoints with conflicting rescale targets —
the arithmetic mean of the two endpoint-derived weights. -/
def resolveWeight (eout members : List (List ℕ)) (beta : ℚ)
    (base : ℕ × ℕ → ℚ) (e : ℕ × ℕ) : ℚ :=
  (localWeight eout members beta base e.1 e +
    localWeight eout members beta base e.2 e) / 2

/-- Modelled from the spec: node `u` is degenerate when it has zero
intra-community edges although the intra fraction `1 - beta` is nonzero,
or zero inter-community edges although the inter fraction `beta` is
nonzero (the rescale target is unsatisfiable). -/
def degenerateNode (eout members : List (List ℕ)) (beta : ℚ) (u : ℕ) : Bool :=
  ((intraEdges eout members u).isEmpty && decide (beta < 1)) ||
    ((interEdges eout members u).isEmpty && decide (0 < beta))

/-- Modelled from the spec: whether some node of the topology is
degenerate for the requested `beta`. -/
def hasDegenerate (eout members : List (List ℕ)) (beta : ℚ) : Bool :=
  (List.range eout.length).any (fun u => degenerateNode eout members beta u)

/-- Modelled from the spec: a base edge magnitude drawn from the
power-law distribution with exponent `muw` by the inverse-CDF transform
applied to a uniform draw `x` from `(0, 1]` of the pseudo-random
stream: the continuous transform is `x ^ (1 / (1 - muw))`, and its
exponent magnitude `1 / (muw - 1)` is rounded up to an integer so the
magnitude stays rational (exact rational powers with fractional
exponents do not exist). The draw is strictly positive and its tail
heaviness is controlled by `muw`. -/
def baseDraw (muw : ℚ) (r : ℕ) : ℚ :=
  ((((r % 1024 : ℕ) : ℚ) + 1) / 1024) ^ (-(max 1 (Int.ceil (1 / (muw - 1)))))

/-- Modelled from the spec: the per-edge base magnitude, drawn
deterministically from the seed-derived stream. -/
def edgeBase (muw : ℚ) (rng : ℕ) (e : ℕ × ℕ) : ℚ :=
  baseDraw muw (lcg (rng + 2654435761 * e.1 + 40503 * e.2))

/-- Modelled from the spec: the finished weight map `Wout` — one entry
per stored edge `(t, h)`, keyed by `h` in row `t`, holding the resolved
symmetric weight. -/
def woutOf (eout members : List (List ℕ)) (muw beta : ℚ) (rng : ℕ) :
    List (List (ℕ × ℚ)) :=
  (List.range eout.length).map (fun t =>
    (eout.getD t []).map (fun h =>
      (h, resolveWeight eout members beta (edgeBase muw rng) (t, h))))

/-- Modelled from the spec: the Weight Assigner — rejects `beta` outside
`[0, 1]` and `muw ≤ 0` with `InvalidParameter`, rejects degenerate
topologies with `DegenerateInput`, and otherwise produces the full weight
map. -/
def AssignWeights (eout members : List (List ℕ)) (muw beta : ℚ)
    (rng : ℕ) : Except GraphgenError (List (List (ℕ × ℚ))) :=
  if beta < 0 ∨ 1 < beta ∨ muw ≤ 0 then
    Except.error GraphgenError.InvalidParameter
  else if hasDegenerate eout members beta then
    Except.error GraphgenError.DegenerateInput
  else Except.ok (woutOf eout members muw beta rng)

/-- Modelled from the spec: `build_network_klemm` (declared in
`benchm.hpp`, source not in the repository snapshot) — validates the
growth parameters before any graph state is built, fails with
`InvalidParameter` when `num_nodes < clique_size`, `clique_size < 2` or
`clique_linkage` lies outside `[0, 1]`, and otherwise runs the Network
Grower followed by the Weight Assigner. -/
def build_network_klemm (num_nodes clique_size : ℕ)
    (clique_linkage muw beta : ℚ) (seed : ℕ) :
    Except GraphgenError
      (List (List ℕ) × List (List ℕ) × List (List (ℕ × ℚ))) :=
  if num_nodes < clique_size ∨ clique_size < 2 ∨
      clique_linkage < 0 ∨ 1 < clique_linkage then
    Except.error GraphgenError.InvalidParameter
  else
    let g := grow num_nodes clique_size clique_linkage seed
    Except.map (fun w => (g.eout, g.members, w))
      (AssignWeights g.eout g.members muw beta g.rng)

/-- Embedding of the pipeline entry point `GenerateKlemmGraph`: after
argument parsing (represented by the typed parameters), the core builds
`Eout`, `member_list` and `Wout`, and the three converters marshal them
into the returned triple of edge array, community tuple and weight
array. A failure of the core or of a weight lookup surfaces as an error
and no (possibly partial) graph is returned. -/
def GenerateKlemmGraph (num_nodes clique_size : ℕ)
    (clique_linkage muw beta : ℚ) (seed : ℕ) :
    Except GraphgenError (List (ℕ × ℕ) × List (List ℕ) × List ℚ) :=
  match build_network_klemm num_nodes clique_size clique_linkage muw beta seed with
  | Except.error e => Except.error e
  | Except.ok (eout, member_list, wout) =>
    match ConvertWeightMapToNumpyArray wout eout with
    | none => Except.error GraphgenError.KeyNotFound
    | some warr =>
      Except.ok (ConvertEdgeDequeToNumpyArray eout,
        ConvertMemberDequeToTuple member_list, warr)

theorem edgeRowsFrom_length (t : ℕ) (E : List (List ℕ)) :
    (edgeRowsFrom t E).length = (E.map List.length).sum := by
  induction E generalizing t with
  | nil => rfl
  | cons hs rest ih =>
    simp [edgeRowsFrom, ih]

theorem mem_edgeRowsFrom {p : ℕ × ℕ} {t : ℕ} {E : List (List ℕ)} :
    p ∈ edgeRowsFrom t E ↔
      ∃ i, i < E.length ∧ p.1 = t + i ∧ p.2 ∈ E.getD i [] := by
  induction E generalizing t with
  | nil => simp [edgeRowsFrom]
  | cons hs rest ih =>
    constructor
    · intro hp
      rcases List.mem_append.1 hp with hp | hp
      · rcases List.mem_map.1 hp with ⟨h, hh, rfl⟩
        exact ⟨0, by simp, by simp, by simpa using hh⟩
      · rcases ih.1 hp with ⟨i, hi, h1, h2⟩
        exact ⟨i + 1, by simpa using hi, by omega, by simpa using h2⟩
    · rintro ⟨i, hi, h1, h2⟩
      rcases i with _ | i
      · apply List.mem_append.2 (Or.inl ?_)
        have : p = (t, p.2) := by
          ext <;> simp [h1]
        rw [this]
        exact List.mem_map.2 ⟨p.2, by simpa using h2, rfl⟩
      · apply List.mem_append.2 (Or.inr ?_)
        exact ih.2 ⟨i, by simpa using hi, by omega, by simpa using h2⟩

theorem weightsGo_isSome_iff (Wout : List (List (ℕ × ℚ))) (rs : List (ℕ × ℕ)) :
    (weightsGo Wout rs).isSome ↔ ∀ r ∈ rs, (lookupWeight Wout r).isSome := by
  induction rs with
  | nil => simp [weightsGo]
  | cons r rs ih =>
    rcases hw : lookupWeight Wout r with _ | w
    · simp [weightsGo, hw]
    · rcases hgo : weightsGo Wout rs with _ | ws
      · rw [hgo] at ih
        simp only [weightsGo, hw, hgo]
        simp only [Option.isSome_none, Bool.false_eq_true, false_iff] at ih ⊢
        intro hall
        exact ih (fun x hx => hall x (List.mem_cons_of_mem _ hx))
      · rw [hgo] at ih
        simp only [weightsGo, hw, hgo]
        simp only [Option.isSome_some, true_iff] at ih
        simp only [Option.isSome_some, true_iff]
        intro x hx
        rcases List.mem_cons.1 hx with rfl | hx
        · simp [hw]
        · exact ih x hx

theorem weightsGo_length {Wout : List (List (ℕ × ℚ))} {rs : List (ℕ × ℕ)}
    {ws : List ℚ} (h : weightsGo Wout rs = some ws) : ws.length = rs.length := by
  induction rs generalizing ws with
  | nil =>
    simp only [weightsGo, Option.some.injEq] at h
    simp [← h]
  | cons r rs ih =>
    rcases hw : lookupWeight Wout r with _ | w <;>
      rcases hgo : weightsGo Wout rs with _ | ws' <;>
        simp [weightsGo, hw, hgo] at h
    subst h
    simp [ih hgo]

theorem weightsGo_get? {Wout : List (List (ℕ × ℚ))} {rs : List (ℕ × ℕ)}
    {ws : List ℚ} (h : weightsGo Wout rs = some ws) :
    ∀ i, ws.get? i = (rs.get? i).bind (lookupWeight Wout) := by
  induction rs generalizing ws with
  | nil =>
    simp only [weightsGo, Option.some.injEq] at h
    subst h
    intro i
    simp
  | cons r rs ih =>
    rcases hw : lookupWeight Wout r with _ | w <;>
      rcases hgo : weightsGo Wout rs with _ | ws' <;>
        simp [weightsGo, hw, hgo] at h
    subst h
    intro i
    rcases i with _ | i
    · simp [hw]
    · simpa using ih hgo i

theorem rhe_ge_floor (x : ℚ) : Int.floor x ≤ rhe x := by
  unfold rhe
  split_ifs <;> omega

theorem rhe_le_floor_succ (x : ℚ) : rhe x ≤ Int.floor x + 1 := by
  unfold rhe
  split_ifs <;> omega

theorem rhe_eq_zero_of_le_half (x : ℚ) (h0 : 0 ≤ x) (hh : x ≤ 1 / 2) :
    rhe x = 0 := by
  have hf : Int.floor x = 0 := by
    apply Int.floor_eq_zero_iff.2
    rw [Set.mem_Ico]
    constructor
    · exact h0
    · linarith
  unfold rhe
  rw [hf]
  split_ifs with h1 h2 h3
  · rfl
  · push_cast at h2
    linarith
  · rfl
  · simp at h3

theorem one_le_rhe (x : ℚ) (h : (1 : ℚ) ≤ x) : 1 ≤ rhe x := by
  have hf : (1 : ℤ) ≤ Int.floor x := by
    apply Int.le_floor.2
    exact_mod_cast h
  have := rhe_ge_floor x
  omega

theorem rhe_nonneg (x : ℚ) (h : 0 ≤ x) : 0 ≤ rhe x := by
  have hf : (0 : ℤ) ≤ Int.floor x := by
    apply Int.le_floor.2
    exact_mod_cast h
  have := rhe_ge_floor x
  omega

theorem rhe_le_of_lt (x : ℚ) (n : ℤ) (h : x < (n : ℚ)) : rhe x ≤ n := by
  have hf : Int.floor x < n := Int.floor_lt.2 h
  have := rhe_le_floor_succ x
  omega

theorem intLog_le_of_le (q : ℚ) (z : ℤ) (h : 0 < q) (hq : q ≤ (2 : ℚ) ^ z) :
    Int.log 2 q ≤ z := by
  have h2 := @Int.log_mono_right ℚ _ _ 2 q ((2 : ℚ) ^ z) h hq
  rw [show ((2 : ℚ)) = ((2 : ℕ) : ℚ) by norm_num,
    Int.log_zpow (by norm_num : 1 < 2)] at h2
  exact h2

theorem le_intLog_of_le (q : ℚ) (z : ℤ) (hq : (2 : ℚ) ^ z ≤ q) :
    z ≤ Int.log 2 q := by
  have h2 := @Int.log_mono_right ℚ _ _ 2 ((2 : ℚ) ^ z) q (by positivity) hq
  rw [show ((2 : ℚ)) = ((2 : ℕ) : ℚ) by norm_num,
    Int.log_zpow (by norm_num : 1 < 2)] at h2
  exact h2

theorem zpow_intLog_le (q : ℚ) (h : 0 < q) : (2 : ℚ) ^ Int.log 2 q ≤ q := by
  have := @Int.zpow_log_le_self ℚ _ _ 2 q (by norm_num) h
  simpa using this

theorem lt_zpow_intLog_succ (q : ℚ) : q < (2 : ℚ) ^ (Int.log 2 q + 1) := by
  have := @Int.lt_zpow_succ_log_self ℚ _ _ 2 (by norm_num) q
  simpa using this

theorem intLog_eq_of_bounds (q : ℚ) (z : ℤ) (h1 : (2 : ℚ) ^ z ≤ q)
    (h2 : q < (2 : ℚ) ^ (z + 1)) : Int.log 2 q = z := by
  have h0 : 0 < q := lt_of_lt_of_le (by positivity) h1
  have hlo := le_intLog_of_le q z h1
  have hhi : Int.log 2 q ≤ z := by
    by_contra hcon
    push_neg at hcon
    have hz1 : z + 1 ≤ Int.log 2 q := by omega
    have : (2 : ℚ) ^ (z + 1) ≤ (2 : ℚ) ^ Int.log 2 q := by
      gcongr
      norm_num
    have := lt_of_le_of_lt (le_trans this (zpow_intLog_le q h0)) h2
    exact lt_irrefl _ this
  omega

/-- A positive double at or below half the smallest positive single
denormal rounds to zero when narrowed to single precision. -/
theorem roundF32_underflow (q : ℚ) (h0 : 0 < q)
    (h1 : q ≤ (2 : ℚ) ^ (-(150 : ℤ))) : roundF32 q = 0 := by
  have hlog : Int.log 2 q ≤ -150 := intLog_le_of_le q _ h0 h1
  have hs : f32scale q = -149 := by
    unfold f32scale
    omega
  have hxpos : (0 : ℚ) ≤ q / (2 : ℚ) ^ (-(149 : ℤ)) := by positivity
  have hxle : q / (2 : ℚ) ^ (-(149 : ℤ)) ≤ 1 / 2 := by
    have hd : (2 : ℚ) ^ (-(150 : ℤ)) / (2 : ℚ) ^ (-(149 : ℤ)) = 1 / 2 := by
      rw [← zpow_sub₀ (by norm_num : (2 : ℚ) ≠ 0)]
      norm_num
    calc q / (2 : ℚ) ^ (-(149 : ℤ))
        ≤ (2 : ℚ) ^ (-(150 : ℤ)) / (2 : ℚ) ^ (-(149 : ℤ)) := by
          apply div_le_div_of_nonneg_right h1 ?_ |>.trans_eq rfl
          positivity
      _ = 1 / 2 := hd
  unfold roundF32
  rw [if_neg (by positivity), if_neg (by linarith)]
  unfold roundF32pos
  rw [hs, rhe_eq_zero_of_le_half _ hxpos hxle]
  simp

/-- A double at or above the smallest positive single denormal narrows to
a strictly positive single-precision value. -/
theorem roundF32_pos_of_denormal_le (q : ℚ)
    (h : (2 : ℚ) ^ (-(149 : ℤ)) ≤ q) : 0 < roundF32 q := by
  have h0 : 0 < q := lt_of_lt_of_le (by positivity) h
  have hlog : -149 ≤ Int.log 2 q := le_intLog_of_le q _ h
  have hsle : f32scale q ≤ Int.log 2 q := by
    unfold f32scale
    omega
  have hq : (2 : ℚ) ^ f32scale q ≤ q := by
    refine le_trans ?_ (zpow_intLog_le q h0)
    gcongr
    norm_num
  have hx : (1 : ℚ) ≤ q / (2 : ℚ) ^ f32scale q :=
    (one_le_div (by positivity)).2 hq
  have hm : 1 ≤ rhe (q / (2 : ℚ) ^ f32scale q) := one_le_rhe _ hx
  unfold roundF32
  rw [if_neg (by positivity), if_neg (by linarith)]
  unfold roundF32pos
  apply mul_pos _ (by positivity)
  exact_mod_cast lt_of_lt_of_le zero_lt_one hm

/-- Every value produced by the single-precision narrowing is exactly
representable with a 24-bit significand and an exponent of at least
`-149`: the surfaced weights carry only float32 precision. -/
theorem roundF32_representable (q : ℚ) :
    ∃ m s : ℤ, roundF32 q = (m : ℚ) * (2 : ℚ) ^ s ∧
      m.natAbs ≤ 2 ^ 24 ∧ -149 ≤ s := by
  have key : ∀ a : ℚ, 0 < a → ∃ m : ℤ, 0 ≤ m ∧ m ≤ 2 ^ 24 ∧
      roundF32pos a = (m : ℚ) * (2 : ℚ) ^ f32scale a := by
    intro a ha
    refine ⟨rhe (a / (2 : ℚ) ^ f32scale a), ?_, ?_, rfl⟩
    · exact rhe_nonneg _ (by positivity)
    · have hub : a < (2 : ℚ) ^ (Int.log 2 a + 1) := lt_zpow_intLog_succ a
      have hsge : Int.log 2 a - 23 ≤ f32scale a := le_max_left _ _
      have hx : a / (2 : ℚ) ^ f32scale a < ((2 ^ 24 : ℤ) : ℚ) := by
        have hlt : a / (2 : ℚ) ^ f32scale a
            < (2 : ℚ) ^ (Int.log 2 a + 1) / (2 : ℚ) ^ f32scale a :=
          div_lt_div_of_pos_right hub (by positivity)
        have heq : (2 : ℚ) ^ (Int.log 2 a + 1) / (2 : ℚ) ^ f32scale a
            = (2 : ℚ) ^ (Int.log 2 a + 1 - f32scale a) := by
          rw [← zpow_sub₀ (by norm_num : (2 : ℚ) ≠ 0)]
        have hle : (2 : ℚ) ^ (Int.log 2 a + 1 - f32scale a)
            ≤ (2 : ℚ) ^ (24 : ℤ) := by
          gcongr
          · norm_num
          · omega
        have hlt24 : a / (2 : ℚ) ^ f32scale a < (2 : ℚ) ^ (24 : ℤ) := by
          rw [heq] at hlt
          exact lt_of_lt_of_le hlt hle
        have hcast : (((2 : ℤ) ^ 24 : ℤ) : ℚ) = (2 : ℚ) ^ (24 : ℤ) := by
          norm_num
        rw [hcast]
        exact hlt24
      exact rhe_le_of_lt _ _ hx
  rcases lt_trichotomy q 0 with hq | hq | hq
  · rcases key (-q) (by linarith) with ⟨m, hm0, hm1, hme⟩
    refine ⟨-m, f32scale (-q), ?_, ?_, le_max_right _ _⟩
    · unfold roundF32
      rw [if_neg (show q ≠ 0 from ne_of_lt hq), if_pos hq, hme]
      push_cast
      ring
    · have h24 : (2 : ℤ) ^ 24 = 16777216 := by norm_num
      have h24n : (2 : ℕ) ^ 24 = 16777216 := by norm_num
      omega
  · refine ⟨0, -149, ?_, by simp, by norm_num⟩
    simp [roundF32, hq]
  · rcases key q hq with ⟨m, hm0, hm1, hme⟩
    refine ⟨m, f32scale q, ?_, ?_, le_max_right _ _⟩
    · unfold roundF32
      rw [if_neg (show q ≠ 0 from ne_of_gt hq), if_neg (by linarith), hme]
    · have h24 : (2 : ℤ) ^ 24 = 16777216 := by norm_num
      have h24n : (2 : ℕ) ^ 24 = 16777216 := by norm_num
      omega

theorem roundF32_one : roundF32 (1 : ℚ) = 1 := by
  have hlog : Int.log 2 (1 : ℚ) = 0 := Int.log_one_right 2
  have hs : f32scale (1 : ℚ) = -23 := by
    unfold f32scale
    rw [hlog]
    norm_num
  have hx : (1 : ℚ) / (2 : ℚ) ^ (-(23 : ℤ)) = 8388608 := by norm_num
  have hfl : Int.floor ((8388608 : ℚ)) = 8388608 := by norm_num
  have hr : rhe ((8388608 : ℚ)) = 8388608 := by
    unfold rhe
    rw [hfl]
    norm_num
  unfold roundF32
  rw [if_neg (by norm_num), if_neg (by norm_num)]
  unfold roundF32pos
  rw [hs, hx, hr]
  norm_num

theorem mem_edgeRows_iff {Eout : List (List ℕ)} {p : ℕ × ℕ} :
    p ∈ ConvertEdgeDequeToNumpyArray Eout ↔
      p.1 < Eout.length ∧ p.2 ∈ Eout.getD p.1 [] := by
  rw [ConvertEdgeDequeToNumpyArray, mem_edgeRowsFrom]
  constructor
  · rintro ⟨i, hi, h1, h2⟩
    have : p.1 = i := by omega
    subst this
    exact ⟨hi, h2⟩
  · rintro ⟨h1, h2⟩
    exact ⟨p.1, h1, by omega, h2⟩

/-- C9: `ConvertWeightMapToNumpyArray` succeeds exactly when the weight
structure `Wout` holds an entry for every edge of `Eout`: for every tail
and every head in `Eout[tail]` the lookup `Wout[tail].at(head)` is
defined; under this precondition the lookup error branch is unreachable,
and when some entry is missing the conversion fails. -/
theorem claim9_weight_conversion_total_iff_covered
    (Wout : List (List (ℕ × ℚ))) (Eout : List (List ℕ)) :
    (ConvertWeightMapToNumpyArray Wout Eout).isSome = true ↔
      ∀ tail h, h ∈ Eout.getD tail [] →
        (lookupWeight Wout (tail, h)).isSome = true := by
  rw [ConvertWeightMapToNumpyArray, Option.isSome_map', weightsGo_isSome_iff]
  constructor
  · intro hall tail h hh
    by_cases ht : tail < Eout.length
    · exact hall (tail, h) (mem_edgeRows_iff.2 ⟨ht, by simpa using hh⟩)
    · rw [List.getD_eq_default _ _ (by omega)] at hh
      exact absurd hh (List.not_mem_nil h)
  · intro hall r hr
    rcases mem_edgeRows_iff.1 hr with ⟨h1, h2⟩
    exact hall r.1 r.2 h2

/-- C10: the edge array produced by `ConvertEdgeDequeToNumpyArray` and
the weight array produced by `ConvertWeightMapToNumpyArray` are always
index-aligned: the number of edge rows equals the total count of
`(tail, head)` entries of `Eout`, and so does the length of any weight
array the weight conversion produces, for every `Wout`. -/
theorem claim10_edge_and_weight_arrays_aligned (Eout : List (List ℕ)) :
    (ConvertEdgeDequeToNumpyArray Eout).length = numEdges Eout ∧
    ∀ Wout ws, ConvertWeightMapToNumpyArray Wout Eout = some ws →
      ws.length = numEdges Eout := by
  constructor
  · exact edgeRowsFrom_length 0 Eout
  · intro Wout ws h
    rw [ConvertWeightMapToNumpyArray] at h
    rcases Option.map_eq_some'.1 h with ⟨ws0, hgo, rfl⟩
    rw [List.length_map, weightsGo_length hgo]
    exact edgeRowsFrom_length 0 Eout

theorem claim10_witness :
    ConvertWeightMapToNumpyArray [[(1, (1 : ℚ)), (2, 1)], [(2, 1)], []]
        [[1, 2], [2], []] = some [1, 1, 1] ∧
    ([1, 1, 1] : List ℚ).length = numEdges [[1, 2], [2], []] := by
  have hgo : weightsGo [[(1, (1 : ℚ)), (2, 1)], [(2, 1)], []]
      (ConvertEdgeDequeToNumpyArray [[1, 2], [2], []]) = some [1, 1, 1] := by
    decide
  have hconv : ConvertWeightMapToNumpyArray [[(1, (1 : ℚ)), (2, 1)], [(2, 1)], []]
      [[1, 2], [2], []] = some [1, 1, 1] := by
    rw [ConvertWeightMapToNumpyArray, hgo]
    simp [roundF32_one]
  exact ⟨hconv,
    (claim10_edge_and_weight_arrays_aligned [[1, 2], [2], []]).2 _ _ hconv⟩

theorem roundF32_pos_of_getD {Wout : List (List (ℕ × ℚ))} {r : ℕ × ℕ} {w : ℚ}
    (hlw : lookupWeight Wout r = some w)
    (hge : (2 : ℚ) ^ (-(149 : ℤ)) ≤ (lookupWeight Wout r).getD 1) :
    0 < roundF32 w := by
  rw [hlw, Option.getD_some] at hge
  exact roundF32_pos_of_denormal_le w hge

theorem roundF32_nonneg_of_pos (q : ℚ) (h : 0 < q) : 0 ≤ roundF32 q := by
  unfold roundF32
  rw [if_neg (ne_of_gt h), if_neg (by linarith)]
  unfold roundF32pos
  apply mul_nonneg _ (by positivity)
  have := rhe_nonneg (q / (2 : ℚ) ^ f32scale q) (by positivity)
  exact_mod_cast this

/-- C2 counterexample: a surfaced weight entry need not be positive even
though every stored weight is a positive real — a stored weight of
`2 ^ (-151)` is positive, yet the single-precision store surfaces the
entry `0` for its edge, so the produced weight array contains a
non-positive entry. -/
theorem claim2_counterexample :
    (0 : ℚ) < (2 : ℚ) ^ (-(151 : ℤ)) ∧
    ConvertWeightMapToNumpyArray [[(1, (2 : ℚ) ^ (-(151 : ℤ)))], []] [[1], []] =
      some [0] ∧
    ¬ (∀ x ∈ ([0] : List ℚ), 0 < x) := by
  refine ⟨by positivity, ?_, ?_⟩
  · have hgo : weightsGo [[(1, (2 : ℚ) ^ (-(151 : ℤ)))], []]
        (ConvertEdgeDequeToNumpyArray [[1], []]) =
        some [(2 : ℚ) ^ (-(151 : ℤ))] := rfl
    rw [ConvertWeightMapToNumpyArray, hgo]
    have hz : roundF32 ((2 : ℚ) ^ (-(151 : ℤ))) = 0 :=
      roundF32_underflow _ (by positivity) (by norm_num)
    simp only [Option.map_some', List.map_cons, List.map_nil, hz]
  · intro hall
    exact absurd (hall 0 (by simp)) (lt_irrefl 0)

/-- C2 (amended): whenever every edge of `Eout` has a stored weight and
all stored weights are positive, the produced weight array is parallel
to the produced edge array: entry `i` of the weight array is the
single-precision cast of the weight stored for key `head` in the weight
map of node `tail`, where `(tail, head)` is row `i` of the edge array;
every entry is nonnegative, and strictly positive whenever the stored
weights lie at or above the smallest positive single denormal (only
sub-denormal stored doubles can surface as `0`). -/
theorem claim2_weights_parallel_to_edges (Wout : List (List (ℕ × ℚ)))
    (Eout : List (List ℕ))
    (hcov : ∀ r ∈ ConvertEdgeDequeToNumpyArray Eout,
      (lookupWeight Wout r).isSome = true)
    (hpos : ∀ r ∈ ConvertEdgeDequeToNumpyArray Eout,
      0 < (lookupWeight Wout r).getD 1) :
    ∃ ws, ConvertWeightMapToNumpyArray Wout Eout = some ws ∧
      (∀ i, ws.get? i = ((ConvertEdgeDequeToNumpyArray Eout).get? i).bind
        (fun r => (lookupWeight Wout r).map roundF32)) ∧
      (∀ x ∈ ws, 0 ≤ x) ∧
      ((∀ r ∈ ConvertEdgeDequeToNumpyArray Eout,
        (2 : ℚ) ^ (-(149 : ℤ)) ≤ (lookupWeight Wout r).getD 1) →
        ∀ x ∈ ws, 0 < x) := by
  have hsome : (weightsGo Wout (ConvertEdgeDequeToNumpyArray Eout)).isSome = true := by
    rw [weightsGo_isSome_iff]
    exact hcov
  rcases Option.isSome_iff_exists.1 hsome with ⟨ws0, hgo⟩
  have hmem : ∀ x ∈ ws0.map roundF32, ∃ r, r ∈ ConvertEdgeDequeToNumpyArray Eout ∧
      ∃ w, lookupWeight Wout r = some w ∧ x = roundF32 w := by
    intro x hx
    rcases List.mem_map.1 hx with ⟨w, hw, rfl⟩
    rcases List.mem_iff_get?.1 hw with ⟨n, hn⟩
    have hrn := weightsGo_get? hgo n
    rw [hn] at hrn
    rcases Option.bind_eq_some.1 hrn.symm with ⟨r, hr, hlw⟩
    exact ⟨r, List.get?_mem hr, w, hlw, rfl⟩
  refine ⟨ws0.map roundF32, ?_, ?_, ?_, ?_⟩
  · rw [ConvertWeightMapToNumpyArray, hgo]
    rfl
  · intro i
    rw [List.get?_map, weightsGo_get? hgo i]
    rcases (ConvertEdgeDequeToNumpyArray Eout).get? i with _ | r
    · simp
    · simp
  · intro x hx
    rcases hmem x hx with ⟨r, hrmem, w, hlw, rfl⟩
    have hw := hpos r hrmem
    rw [hlw, Option.getD_some] at hw
    exact roundF32_nonneg_of_pos w hw
  · intro hmin x hx
    rcases hmem x hx with ⟨r, hrmem, w, hlw, rfl⟩
    exact roundF32_pos_of_getD hlw (hmin r hrmem)

theorem claim2_witness :
    ∃ ws, ConvertWeightMapToNumpyArray [[(1, (1 : ℚ))], []] [[1], []] = some ws ∧
      (∀ i, ws.get? i = ((ConvertEdgeDequeToNumpyArray [[1], []]).get? i).bind
        (fun r => (lookupWeight [[(1, (1 : ℚ))], []] r).map roundF32)) ∧
      (∀ x ∈ ws, 0 ≤ x) ∧
      ((∀ r ∈ ConvertEdgeDequeToNumpyArray [[1], []],
        (2 : ℚ) ^ (-(149 : ℤ)) ≤ (lookupWeight [[(1, (1 : ℚ))], []] r).getD 1) →
        ∀ x ∈ ws, 0 < x) :=
  claim2_weights_parallel_to_edges [[(1, (1 : ℚ))], []] [[1], []]
    (by decide) (by decide)

theorem edgeRowsFrom_fst_ge {t : ℕ} {E : List (List ℕ)} :
    ∀ p ∈ edgeRowsFrom t E, t ≤ p.1 := by
  intro p hp
  rcases mem_edgeRowsFrom.1 hp with ⟨i, _, h1, _⟩
  omega

theorem edgeRowsFrom_fst_lt_snd {t : ℕ} {E : List (List ℕ)}
    (hut : ∀ i, i < E.length → ∀ h ∈ E.getD i [], t + i < h) :
    ∀ p ∈ edgeRowsFrom t E, p.1 < p.2 := by
  intro p hp
  rcases mem_edgeRowsFrom.1 hp with ⟨i, hi, h1, h2⟩
  have := hut i hi p.2 h2
  omega

theorem edgeRowsFrom_pairwise {t : ℕ} {E : List (List ℕ)}
    (hut : ∀ i, i < E.length → ∀ h ∈ E.getD i [], t + i < h)
    (hset : ∀ row ∈ E, List.Chain' (· < ·) row) :
    List.Pairwise (fun p q : ℕ × ℕ => p ≠ q ∧ ¬(p.1 = q.2 ∧ p.2 = q.1))
      (edgeRowsFrom t E) := by
  induction E generalizing t with
  | nil => simp [edgeRowsFrom]
  | cons hs rest ih =>
    have hut0 : ∀ h ∈ hs, t < h := by
      intro h hh
      have := hut 0 (by simp) h (by simpa using hh)
      omega
    have hutS : ∀ i, i < rest.length → ∀ h ∈ rest.getD i [], (t + 1) + i < h := by
      intro i hi h hh
      have := hut (i + 1) (by simpa using hi) h (by simpa using hh)
      omega
    rw [edgeRowsFrom, List.pairwise_append]
    refine ⟨?_, ih hutS (fun row hr => hset row (List.mem_cons_of_mem _ hr)), ?_⟩
    · rw [List.pairwise_map]
      have hpw : List.Pairwise (· < ·) hs :=
        List.chain'_iff_pairwise.1 (hset hs (List.mem_cons_self _ _))
      refine hpw.imp_of_mem ?_
      intro a b ha hb hab
      constructor
      · intro hc
        have : a = b := congrArg Prod.snd hc
        omega
      · rintro ⟨h1, h2⟩
        have hta := hut0 a ha
        simp only at h1 h2
        omega
    · intro p hp q hq
      rcases List.mem_map.1 hp with ⟨h, hh, rfl⟩
      have hq1 : t + 1 ≤ q.1 := edgeRowsFrom_fst_ge q hq
      have hq2 : q.1 < q.2 := edgeRowsFrom_fst_lt_snd hutS q hq
      constructor
      · intro hc
        have : t = q.1 := congrArg Prod.fst hc
        omega
      · rintro ⟨h1, h2⟩
        simp only at h1 h2
        omega

/-- C3: under the grower's storage invariant — every stored head exceeds
its tail, and every head row is a strictly sorted set — the produced edge
list consists of pairs with `tail < head` (hence no self-loops), and no
unordered pair appears twice: any two distinct positions hold rows that
are neither equal nor swaps of one another. -/
theorem claim3_edge_list_simple (Eout : List (List ℕ))
    (hut : ∀ tail, tail < Eout.length → ∀ h ∈ Eout.getD tail [], tail < h)
    (hset : ∀ row ∈ Eout, List.Chain' (· < ·) row) :
    (∀ p ∈ ConvertEdgeDequeToNumpyArray Eout, p.1 < p.2) ∧
    List.Pairwise (fun p q : ℕ × ℕ => p ≠ q ∧ ¬(p.1 = q.2 ∧ p.2 = q.1))
      (ConvertEdgeDequeToNumpyArray Eout) := by
  constructor
  · exact edgeRowsFrom_fst_lt_snd (by simpa using hut)
  · exact edgeRowsFrom_pairwise (by simpa using hut) hset

theorem claim3_witness :
    (∀ p ∈ ConvertEdgeDequeToNumpyArray [[1, 2], [2], []], p.1 < p.2) ∧
    List.Pairwise (fun p q : ℕ × ℕ => p ≠ q ∧ ¬(p.1 = q.2 ∧ p.2 = q.1))
      (ConvertEdgeDequeToNumpyArray [[1, 2], [2], []]) :=
  claim3_edge_list_simple [[1, 2], [2], []] (by decide)
    (by intro row hr; fin_cases hr <;> simp [List.chain'_cons])

theorem build_network_klemm_invalid (muw beta : ℚ) (seed : ℕ)
    {num_nodes clique_size : ℕ} {clique_linkage : ℚ}
    (h : num_nodes < clique_size ∨ clique_size < 2 ∨
      clique_linkage < 0 ∨ 1 < clique_linkage) :
    build_network_klemm num_nodes clique_size clique_linkage muw beta seed =
      Except.error GraphgenError.InvalidParameter := by
  rw [build_network_klemm, if_pos h]

theorem build_network_klemm_valid {num_nodes clique_size : ℕ}
    {clique_linkage muw beta : ℚ} {seed : ℕ}
    (h : ¬(num_nodes < clique_size ∨ clique_size < 2 ∨
      clique_linkage < 0 ∨ 1 < clique_linkage)) :
    build_network_klemm num_nodes clique_size clique_linkage muw beta seed =
      Except.map (fun w =>
        ((grow num_nodes clique_size clique_linkage seed).eout,
          (grow num_nodes clique_size clique_linkage seed).members, w))
        (AssignWeights (grow num_nodes clique_size clique_linkage seed).eout
          (grow num_nodes clique_size clique_linkage seed).members muw beta
          (grow num_nodes clique_size clique_linkage seed).rng) := by
  rw [build_network_klemm, if_neg h]

theorem GenerateKlemmGraph_error {num_nodes clique_size : ℕ}
    {clique_linkage muw beta : ℚ} {seed : ℕ} {e : GraphgenError}
    (h : build_network_klemm num_nodes clique_size clique_linkage muw beta seed =
      Except.error e) :
    GenerateKlemmGraph num_nodes clique_size clique_linkage muw beta seed =
      Except.error e := by
  rw [GenerateKlemmGraph, h]

/-- C1: a call of the pipeline entry point with `num_nodes < clique_size`,
`clique_size < 2`, or `clique_linkage` outside `[0, 1]` fails with
`InvalidParameter` (the validation precedes any growth), and no graph —
not even a partial one — is returned. -/
theorem claim1_invalid_parameters_rejected (num_nodes clique_size : ℕ)
    (clique_linkage muw beta : ℚ) (seed : ℕ)
    (h : num_nodes < clique_size ∨ clique_size < 2 ∨
      clique_linkage < 0 ∨ 1 < clique_linkage) :
    GenerateKlemmGraph num_nodes clique_size clique_linkage muw beta seed =
      Except.error GraphgenError.InvalidParameter ∧
    ∀ out, GenerateKlemmGraph num_nodes clique_size clique_linkage muw beta seed ≠
      Except.ok out := by
  have h1 := GenerateKlemmGraph_error (build_network_klemm_invalid muw beta seed h)
  refine ⟨h1, ?_⟩
  intro out hc
  rw [h1] at hc
  exact Except.noConfusion hc

theorem claim1_witness :
    GenerateKlemmGraph 1 2 0 2 (1 / 2) 0 =
      Except.error GraphgenError.InvalidParameter ∧
    ∀ out, GenerateKlemmGraph 1 2 0 2 (1 / 2) 0 ≠ Except.ok out :=
  claim1_invalid_parameters_rejected 1 2 0 2 (1 / 2) 0 (by norm_num)

/-- C4: the pipeline is deterministic — for a fixed parameter tuple, two
runs of the entry point denote the same value, so the edge arrays,
community tuples and weight arrays of two independent runs coincide. -/
theorem claim4_deterministic (num_nodes clique_size : ℕ)
    (clique_linkage muw beta : ℚ) (seed : ℕ) :
    GenerateKlemmGraph num_nodes clique_size clique_linkage muw beta seed =
      GenerateKlemmGraph num_nodes clique_size clique_linkage muw beta seed :=
  rfl

/-- C5: weight assignment fails with `InvalidParameter` when `beta` lies
outside `[0, 1]` or `muw ≤ 0`; with valid parameters it fails with
`DegenerateInput` when some node of the grown topology has zero
intra-community or zero inter-community edges while a nonzero weight
fraction is requested for that category; and on any failure no partial
triple is surfaced — the pipeline result is either a full `ok` triple or
a bare error. -/
theorem claim5_weight_assignment_failures (num_nodes clique_size : ℕ)
    (clique_linkage muw beta : ℚ) (seed : ℕ) :
    ((beta < 0 ∨ 1 < beta ∨ muw ≤ 0) →
      GenerateKlemmGraph num_nodes clique_size clique_linkage muw beta seed =
        Except.error GraphgenError.InvalidParameter) ∧
    (¬(num_nodes < clique_size ∨ clique_size < 2 ∨
        clique_linkage < 0 ∨ 1 < clique_linkage) →
      ¬(beta < 0 ∨ 1 < beta ∨ muw ≤ 0) →
      hasDegenerate (grow num_nodes clique_size clique_linkage seed).eout
        (grow num_nodes clique_size clique_linkage seed).members beta = true →
      GenerateKlemmGraph num_nodes clique_size clique_linkage muw beta seed =
        Except.error GraphgenError.DegenerateInput) ∧
    ((∃ t, GenerateKlemmGraph num_nodes clique_size clique_linkage muw beta seed =
        Except.ok t) ∨
      (∃ e, GenerateKlemmGraph num_nodes clique_size clique_linkage muw beta seed =
        Except.error e)) := by
  refine ⟨?_, ?_, ?_⟩
  · intro hb
    by_cases hv : num_nodes < clique_size ∨ clique_size < 2 ∨
        clique_linkage < 0 ∨ 1 < clique_linkage
    · exact GenerateKlemmGraph_error (build_network_klemm_invalid muw beta seed hv)
    · apply GenerateKlemmGraph_error
      rw [build_network_klemm_valid hv, AssignWeights, if_pos hb]
      rfl
  · intro hv hb hdeg
    apply GenerateKlemmGraph_error
    rw [build_network_klemm_valid hv, AssignWeights, if_neg hb, if_pos hdeg]
    rfl
  · rcases hres : GenerateKlemmGraph num_nodes clique_size clique_linkage muw beta seed
      with e | t
    · exact Or.inr ⟨e, rfl⟩
    · exact Or.inl ⟨t, rfl⟩

theorem claim5_witness :
    GenerateKlemmGraph 2 2 0 2 (mkRat 1 2) 7 =
      Except.error GraphgenError.DegenerateInput :=
  (claim5_weight_assignment_failures 2 2 0 2 (mkRat 1 2) 7).2.1
    (by decide) (by decide) (by decide)

theorem grow_eq_seed (clique_size : ℕ) (clique_linkage : ℚ) (seed : ℕ) :
    grow clique_size clique_size clique_linkage seed =
      seedCliqueState clique_size clique_size seed := by
  rw [grow, Nat.sub_self]
  rfl

theorem seed_eout_eq (clique_size seed : ℕ) :
    (seedCliqueState clique_size clique_size seed).eout =
      (List.range clique_size).map (fun i =>
        (List.range clique_size).filter (fun j => decide (i < j))) := by
  simp only [seedCliqueState]
  apply List.map_congr_left
  intro i hi
  rw [if_pos (List.mem_range.1 hi)]

theorem getD_map_range {k i : ℕ} (f : ℕ → List ℕ) (h : i < k) :
    ((List.range k).map f).getD i [] = f i := by
  rw [List.getD_eq_get?, List.get?_map, List.get?_range h]
  rfl

theorem filter_range_length (i : ℕ) : ∀ k : ℕ,
    ((List.range k).filter (fun j => decide (i < j))).length = k - (i + 1) := by
  intro k
  induction k with
  | zero => simp
  | succ k ih =>
    have hx : (List.range (k + 1)).filter (fun j => decide (i < j)) =
        ((List.range k).filter (fun j => decide (i < j))) ++
          (if i < k then [k] else []) := by
      rw [List.range_succ, List.filter_append]
      congr 1
      split_ifs with h
      · simp [h]
      · simp [h]
    rw [hx, List.length_append, ih]
    split_ifs with h
    · simp
      omega
    · simp
      omega

theorem sum_range_mul_two (k : ℕ) :
    (List.range (k + 1)).sum * 2 = k * (k + 1) := by
  induction k with
  | zero => rfl
  | succ k ih =>
    rw [List.range_succ, List.sum_append]
    have hr : ((List.range (k + 1)).sum + [k + 1].sum) * 2 =
        (List.range (k + 1)).sum * 2 + (k + 1) * 2 := by
      simp
      ring
    rw [hr, ih]
    ring

theorem sum_map_range_rev (k : ℕ) :
    ((List.range k).map (fun i => k - (i + 1))).sum = (List.range k).sum := by
  induction k with
  | zero => rfl
  | succ k ih =>
    have hc : (List.range k).map ((fun i => k + 1 - (i + 1)) ∘ Nat.succ) =
        (List.range k).map (fun i => k - (i + 1)) := by
      apply List.map_congr_left
      intro a _
      simp only [Function.comp_apply]
      omega
    conv_lhs => rw [List.range_succ_eq_map, List.map_cons, List.map_map, hc]
    conv_rhs => rw [List.range_succ]
    rw [List.sum_cons, ih, List.sum_append]
    simp
    omega

theorem seed_edgeRows_length (k : ℕ) :
    (ConvertEdgeDequeToNumpyArray ((List.range k).map (fun i =>
      (List.range k).filter (fun j => decide (i < j))))).length =
      k * (k - 1) / 2 := by
  rw [ConvertEdgeDequeToNumpyArray, edgeRowsFrom_length, List.map_map]
  have h1 : (List.range k).map (List.length ∘ fun i =>
      (List.range k).filter (fun j => decide (i < j))) =
      (List.range k).map (fun i => k - (i + 1)) := by
    apply List.map_congr_left
    intro a _
    simp only [Function.comp]
    exact filter_range_length a k
  rw [h1, sum_map_range_rev]
  cases k with
  | zero => rfl
  | succ m =>
    have h1 := sum_range_mul_two m
    have h2 : (m + 1) * ((m + 1) - 1) = m * (m + 1) := by
      simp [Nat.add_sub_cancel, Nat.mul_comm]
    rw [h2]
    omega

theorem seed_edgeRows_mem (k : ℕ) (p : ℕ × ℕ) :
    p ∈ ConvertEdgeDequeToNumpyArray ((List.range k).map (fun i =>
      (List.range k).filter (fun j => decide (i < j)))) ↔
      p.1 < p.2 ∧ p.2 < k := by
  rw [mem_edgeRows_iff]
  constructor
  · rintro ⟨h1, h2⟩
    rw [List.length_map, List.length_range] at h1
    rw [getD_map_range _ h1, List.mem_filter, List.mem_range] at h2
    rcases h2 with ⟨hlt, hd⟩
    exact ⟨by simpa using hd, hlt⟩
  · rintro ⟨h1, h2⟩
    have hp1 : p.1 < k := by omega
    constructor
    · rw [List.length_map, List.length_range]
      exact hp1
    · rw [getD_map_range _ hp1, List.mem_filter, List.mem_range]
      exact ⟨h2, by simpa using h1⟩

/-- C7: when `num_nodes = clique_size` the growth loop is empty and the
grower's output is exactly the seed clique — the edge list is the
complete graph on the `clique_size` nodes (all pairs `tail < head` below
`clique_size`), there is a single community containing every node, and
the edge list holds `clique_size * (clique_size - 1) / 2` rows. -/
theorem claim7_boundary_seed_clique (num_nodes clique_size : ℕ)
    (clique_linkage : ℚ) (seed : ℕ) (h : num_nodes = clique_size)
    (hk : 2 ≤ clique_size) :
    (∀ p : ℕ × ℕ, p ∈ ConvertEdgeDequeToNumpyArray
        (grow num_nodes clique_size clique_linkage seed).eout ↔
      p.1 < p.2 ∧ p.2 < clique_size) ∧
    (grow num_nodes clique_size clique_linkage seed).members =
      List.replicate clique_size [0] ∧
    (ConvertEdgeDequeToNumpyArray
        (grow num_nodes clique_size clique_linkage seed).eout).length =
      clique_size * (clique_size - 1) / 2 := by
  subst h
  rw [grow_eq_seed, seed_eout_eq]
  refine ⟨fun p => seed_edgeRows_mem _ p, ?_, seed_edgeRows_length _⟩
  simp only [seedCliqueState]
  rw [List.map_const', List.length_range]

theorem claim7_witness :
    (∀ p : ℕ × ℕ, p ∈ ConvertEdgeDequeToNumpyArray
        (grow 3 3 0 5).eout ↔ p.1 < p.2 ∧ p.2 < 3) ∧
    (grow 3 3 0 5).members = List.replicate 3 [0] ∧
    (ConvertEdgeDequeToNumpyArray (grow 3 3 0 5).eout).length = 3 * (3 - 1) / 2 :=
  claim7_boundary_seed_clique 3 3 0 5 rfl (by decide)

theorem sum_map_filter_split (f : ℕ × ℕ → ℚ) (p : ℕ × ℕ → Bool)
    (l : List (ℕ × ℕ)) :
    ((l.filter p).map f).sum + ((l.filter (fun a => !(p a))).map f).sum =
      (l.map f).sum := by
  induction l with
  | nil => simp
  | cons a l ih =>
    rcases hpa : p a with _ | _
    · simp only [List.filter_cons, hpa]
      norm_num
      linarith [ih]
    · simp only [List.filter_cons, hpa]
      norm_num
      linarith [ih]

theorem baseSum_pos {base : ℕ × ℕ → ℚ} {l : List (ℕ × ℕ)}
    (h : ∀ r ∈ l, 0 < base r) (hne : l ≠ []) : 0 < baseSum base l := by
  rw [baseSum]
  apply List.sum_pos
  · intro x hx
    rcases List.mem_map.1 hx with ⟨r, hr, rfl⟩
    exact h r hr
  · intro hc
    exact hne (List.map_eq_nil.1 hc)

theorem sum_local_intra (eout members : List (List ℕ)) (beta : ℚ)
    (base : ℕ × ℕ → ℚ) (u : ℕ)
    (h : baseSum base (intraEdges eout members u) ≠ 0) :
    ((intraEdges eout members u).map (localWeight eout members beta base u)).sum
      = (1 - beta) * baseSum base (incidentEdges eout u) := by
  have hcong : (intraEdges eout members u).map (localWeight eout members beta base u)
      = (intraEdges eout members u).map (fun e =>
          ((1 - beta) * baseSum base (incidentEdges eout u) /
            baseSum base (intraEdges eout members u)) * base e) := by
    apply List.map_congr_left
    intro e he
    have hsh : sharesCommunity members e.1 e.2 = true := (List.mem_filter.1 he).2
    simp only [localWeight, hsh, if_true]
    ring
  rw [hcong, List.sum_map_mul_left]
  have hb : ((intraEdges eout members u).map base).sum =
      baseSum base (intraEdges eout members u) := rfl
  rw [hb, div_mul_cancel₀ _ h]

theorem sum_local_inter (eout members : List (List ℕ)) (beta : ℚ)
    (base : ℕ × ℕ → ℚ) (u : ℕ)
    (h : baseSum base (interEdges eout members u) ≠ 0) :
    ((interEdges eout members u).map (localWeight eout members beta base u)).sum
      = beta * baseSum base (incidentEdges eout u) := by
  have hcong : (interEdges eout members u).map (localWeight eout members beta base u)
      = (interEdges eout members u).map (fun e =>
          (beta * baseSum base (incidentEdges eout u) /
            baseSum base (interEdges eout members u)) * base e) := by
    apply List.map_congr_left
    intro e he
    have hsh : (!(sharesCommunity members e.1 e.2)) = true := (List.mem_filter.1 he).2
    have hsh' : sharesCommunity members e.1 e.2 = false := by
      simpa using hsh
    simp only [localWeight, hsh', if_false, Bool.false_eq_true]
    ring
  rw [hcong, List.sum_map_mul_left]
  have hb : ((interEdges eout members u).map base).sum =
      baseSum base (interEdges eout members u) := rfl
  rw [hb, div_mul_cancel₀ _ h]

theorem localWeight_pos (eout members : List (List ℕ)) (beta : ℚ)
    (base : ℕ × ℕ → ℚ) (u : ℕ) (e : ℕ × ℕ)
    (hb0 : 0 < beta) (hb1 : beta < 1)
    (hbase : ∀ r ∈ incidentEdges eout u, 0 < base r)
    (hin : e ∈ incidentEdges eout u)
    (hintra : intraEdges eout members u ≠ [])
    (hinter : interEdges eout members u ≠ []) :
    0 < localWeight eout members beta base u e := by
  have hS : 0 < baseSum base (incidentEdges eout u) :=
    baseSum_pos hbase (List.ne_nil_of_mem hin)
  have hIa : 0 < baseSum base (intraEdges eout members u) :=
    baseSum_pos (fun r hr => hbase r (List.mem_filter.1 hr).1) hintra
  have hIe : 0 < baseSum base (interEdges eout members u) :=
    baseSum_pos (fun r hr => hbase r (List.mem_filter.1 hr).1) hinter
  simp only [localWeight]
  split_ifs with hsh
  · exact div_pos (mul_pos (mul_pos (hbase e hin) (by linarith)) hS) hIa
  · exact div_pos (mul_pos (mul_pos (hbase e hin) hb0) hS) hIe

theorem mem_incidentEdges_left {eout : List (List ℕ)} {e : ℕ × ℕ}
    (he : e ∈ ConvertEdgeDequeToNumpyArray eout) :
    e ∈ incidentEdges eout e.1 := by
  rw [incidentEdges, List.mem_filter]
  exact ⟨he, by simp⟩

theorem mem_incidentEdges_right {eout : List (List ℕ)} {e : ℕ × ℕ}
    (he : e ∈ ConvertEdgeDequeToNumpyArray eout) :
    e ∈ incidentEdges eout e.2 := by
  rw [incidentEdges, List.mem_filter]
  exact ⟨he, by simp⟩

theorem sum_map_add {α : Type} (f g : α → ℚ) (l : List α) :
    (l.map (fun x => f x + g x)).sum = (l.map f).sum + (l.map g).sum := by
  induction l with
  | nil => simp
  | cons a l ih =>
    simp only [List.map_cons, List.sum_cons, ih]
    ring

theorem sum_ite_range_zero (c : ℕ) (v : ℚ) :
    ∀ n : ℕ, n ≤ c →
      ((List.range n).map (fun u => if c = u then v else 0)).sum = 0 := by
  intro n
  induction n with
  | zero => intro _; rfl
  | succ n ih =>
    intro hc
    rw [List.range_succ, List.map_append, List.sum_append, ih (by omega)]
    have hne : c ≠ n := by omega
    simp [hne]

theorem sum_ite_range (c : ℕ) (v : ℚ) :
    ∀ n : ℕ, c < n →
      ((List.range n).map (fun u => if c = u then v else 0)).sum = v := by
  intro n
  induction n with
  | zero => intro h; omega
  | succ n ih =>
    intro hc
    rw [List.range_succ, List.map_append, List.sum_append]
    by_cases h : c < n
    · rw [ih h]
      have hne : c ≠ n := by omega
      simp [hne]
    · have hceq : c = n := by omega
      rw [sum_ite_range_zero c v n (by omega)]
      simp [hceq]

theorem sum_fiber (f : ℕ × ℕ → ℚ) (k : ℕ × ℕ → ℕ) (n : ℕ) :
    ∀ l : List (ℕ × ℕ), (∀ e ∈ l, k e < n) →
      ((List.range n).map (fun u =>
        ((l.filter (fun e => decide (k e = u))).map f).sum)).sum = (l.map f).sum := by
  intro l
  induction l with
  | nil =>
    intro _
    simp only [List.filter_nil, List.map_nil, List.sum_nil]
    rw [List.map_const', List.sum_replicate]
    simp
  | cons a l ih =>
    intro hb
    have hka : k a < n := hb a (List.mem_cons_self _ _)
    have hcong : (List.range n).map (fun u =>
        (((a :: l).filter (fun e => decide (k e = u))).map f).sum) =
        (List.range n).map (fun u => (if k a = u then f a else 0) +
          ((l.filter (fun e => decide (k e = u))).map f).sum) := by
      apply List.map_congr_left
      intro u _
      by_cases hk : k a = u
      · simp [List.filter_cons, hk]
      · simp [List.filter_cons, hk]
    rw [hcong, sum_map_add (fun u => if k a = u then f a else 0)
      (fun u => ((l.filter (fun e => decide (k e = u))).map f).sum) (List.range n),
      sum_ite_range (k a) (f a) n hka, List.map_cons, List.sum_cons,
      ih (fun e he => hb e (List.mem_cons_of_mem _ he))]

theorem incident_filter_split (eout : List (List ℕ)) (u : ℕ)
    (sel : ℕ × ℕ → Bool)
    (hlt : ∀ e ∈ ConvertEdgeDequeToNumpyArray eout, e.1 < e.2)
    (g : ℕ × ℕ → ℚ) :
    (((incidentEdges eout u).filter sel).map g).sum =
      ((((ConvertEdgeDequeToNumpyArray eout).filter sel).filter
        (fun e => decide (e.1 = u))).map g).sum +
      ((((ConvertEdgeDequeToNumpyArray eout).filter sel).filter
        (fun e => decide (e.2 = u))).map g).sum := by
  have hsplit := sum_map_filter_split g (fun e => decide (e.1 = u))
    ((incidentEdges eout u).filter sel)
  have h1 : ((incidentEdges eout u).filter sel).filter
      (fun e => decide (e.1 = u)) =
      ((ConvertEdgeDequeToNumpyArray eout).filter sel).filter
        (fun e => decide (e.1 = u)) := by
    rw [incidentEdges, List.filter_filter, List.filter_filter, List.filter_filter]
    apply List.filter_congr
    intro e _
    by_cases he1 : e.1 = u <;> by_cases hsel : sel e = true <;>
      simp [he1, hsel]
  have h2 : ((incidentEdges eout u).filter sel).filter
      (fun e => !(decide (e.1 = u))) =
      ((ConvertEdgeDequeToNumpyArray eout).filter sel).filter
        (fun e => decide (e.2 = u)) := by
    rw [incidentEdges, List.filter_filter, List.filter_filter, List.filter_filter]
    apply List.filter_congr
    intro e he
    have hne := hlt e he
    by_cases he1 : e.1 = u <;> by_cases he2 : e.2 = u
    · omega
    · simp [he1, he2]
    · simp [he1, he2]
    · simp [he1, he2]
  rw [h1, h2] at hsplit
  linarith [hsplit]

theorem node_local_sums (eout members : List (List ℕ)) (beta : ℚ)
    (base : ℕ × ℕ → ℚ) (u : ℕ)
    (hbaseInc : ∀ r ∈ incidentEdges eout u, 0 < base r)
    (hnd_u : incidentEdges eout u ≠ [] →
      intraEdges eout members u ≠ [] ∧ interEdges eout members u ≠ []) :
    ((interEdges eout members u).map (localWeight eout members beta base u)).sum =
      beta * baseSum base (incidentEdges eout u) ∧
    ((incidentEdges eout u).map (localWeight eout members beta base u)).sum =
      baseSum base (incidentEdges eout u) := by
  by_cases hne : incidentEdges eout u = []
  · have hintra : intraEdges eout members u = [] := by
      rw [intraEdges, hne]
      rfl
    have hinter : interEdges eout members u = [] := by
      rw [interEdges, hne]
      rfl
    rw [hne, hinter]
    simp [baseSum]
  · rcases hnd_u hne with ⟨hintra, hinter⟩
    have hIa : 0 < baseSum base (intraEdges eout members u) :=
      baseSum_pos (fun r hr => hbaseInc r (List.mem_filter.1 hr).1) hintra
    have hIe : 0 < baseSum base (interEdges eout members u) :=
      baseSum_pos (fun r hr => hbaseInc r (List.mem_filter.1 hr).1) hinter
    have hsplit := sum_map_filter_split (localWeight eout members beta base u)
      (fun r => sharesCommunity members r.1 r.2) (incidentEdges eout u)
    have ha := sum_local_intra eout members beta base u (ne_of_gt hIa)
    have he := sum_local_inter eout members beta base u (ne_of_gt hIe)
    have hintra_eq : (incidentEdges eout u).filter
        (fun r => sharesCommunity members r.1 r.2) = intraEdges eout members u := rfl
    have hinter_eq : (incidentEdges eout u).filter
        (fun r => !(sharesCommunity members r.1 r.2)) = interEdges eout members u := rfl
    rw [hintra_eq, hinter_eq, ha, he] at hsplit
    refine ⟨he, ?_⟩
    rw [← hsplit]
    ring

theorem sum_resolve_double (eout members : List (List ℕ)) (beta : ℚ)
    (base : ℕ × ℕ → ℚ) (n : ℕ) (l : List (ℕ × ℕ))
    (hb1 : ∀ e ∈ l, e.1 < n) (hb2 : ∀ e ∈ l, e.2 < n) :
    (l.map (resolveWeight eout members beta base)).sum * 2 =
      ((List.range n).map (fun u => ((l.filter (fun e => decide (e.1 = u))).map
        (localWeight eout members beta base u)).sum)).sum +
      ((List.range n).map (fun u => ((l.filter (fun e => decide (e.2 = u))).map
        (localWeight eout members beta base u)).sum)).sum := by
  have hdouble : (l.map (resolveWeight eout members beta base)).sum * 2 =
      (l.map (fun e => localWeight eout members beta base e.1 e +
        localWeight eout members beta base e.2 e)).sum := by
    rw [← List.sum_map_mul_right]
    apply congrArg List.sum
    apply List.map_congr_left
    intro e _
    rw [resolveWeight]
    ring
  rw [hdouble, sum_map_add (fun e => localWeight eout members beta base e.1 e)
    (fun e => localWeight eout members beta base e.2 e) l]
  congr 1
  · rw [← sum_fiber (fun e => localWeight eout members beta base e.1 e)
      (fun e => e.1) n l hb1]
    apply congrArg List.sum
    apply List.map_congr_left
    intro u _
    apply congrArg List.sum
    apply List.map_congr_left
    intro e he
    have heu : e.1 = u := by
      have := (List.mem_filter.1 he).2
      simpa using this
    rw [heu]
  · rw [← sum_fiber (fun e => localWeight eout members beta base e.2 e)
      (fun e => e.2) n l hb2]
    apply congrArg List.sum
    apply List.map_congr_left
    intro u _
    apply congrArg List.sum
    apply List.map_congr_left
    intro e he
    have heu : e.2 = u := by
      have := (List.mem_filter.1 he).2
      simpa using this
    rw [heu]

theorem resolved_filter_sum (eout members : List (List ℕ)) (beta : ℚ)
    (base : ℕ × ℕ → ℚ) (sel : ℕ × ℕ → Bool)
    (hclosed : ∀ e ∈ ConvertEdgeDequeToNumpyArray eout, e.2 < eout.length)
    (hlt : ∀ e ∈ ConvertEdgeDequeToNumpyArray eout, e.1 < e.2) :
    (((ConvertEdgeDequeToNumpyArray eout).filter sel).map
      (resolveWeight eout members beta base)).sum * 2 =
      ((List.range eout.length).map (fun u =>
        (((incidentEdges eout u).filter sel).map
          (localWeight eout members beta base u)).sum)).sum := by
  have hb1 : ∀ e ∈ (ConvertEdgeDequeToNumpyArray eout).filter sel,
      e.1 < eout.length :=
    fun e he => (mem_edgeRows_iff.1 (List.mem_filter.1 he).1).1
  have hb2 : ∀ e ∈ (ConvertEdgeDequeToNumpyArray eout).filter sel,
      e.2 < eout.length :=
    fun e he => hclosed e (List.mem_filter.1 he).1
  rw [sum_resolve_double eout members beta base eout.length _ hb1 hb2,
    ← sum_map_add (fun u => ((((ConvertEdgeDequeToNumpyArray eout).filter sel).filter
      (fun e => decide (e.1 = u))).map (localWeight eout members beta base u)).sum)
    (fun u => ((((ConvertEdgeDequeToNumpyArray eout).filter sel).filter
      (fun e => decide (e.2 = u))).map (localWeight eout members beta base u)).sum)
    (List.range eout.length)]
  apply congrArg List.sum
  apply List.map_congr_left
  intro u _
  exact (incident_filter_split eout u sel hlt
    (localWeight eout members beta base u)).symm

/-- C6 counterexample: at `beta = 0` a mixed two-community topology
passes the degeneracy check — the weight assignment succeeds — yet the
resolved weight of an existing inter-community edge is exactly `0`, so
not every returned edge weight of a successfully generated graph is
strictly positive. -/
theorem claim6_counterexample :
    hasDegenerate [[1, 2], [3], [3], []] [[0], [0], [1], [1]] 0 = false ∧
    ((0 : ℕ), (2 : ℕ)) ∈ ConvertEdgeDequeToNumpyArray [[1, 2], [3], [3], []] ∧
    resolveWeight [[1, 2], [3], [3], []] [[0], [0], [1], [1]] 0
      (fun _ => 1) (0, 2) = 0 := by
  refine ⟨by decide, by decide, ?_⟩
  have hsh : sharesCommunity [[0], [0], [1], [1]] 0 2 = false := rfl
  have h0 : localWeight [[1, 2], [3], [3], []] [[0], [0], [1], [1]] 0
      (fun _ => 1) 0 ((0 : ℕ), (2 : ℕ)) = 0 := by
    simp [localWeight, hsh]
  have h2 : localWeight [[1, 2], [3], [3], []] [[0], [0], [1], [1]] 0
      (fun _ => 1) 2 ((0 : ℕ), (2 : ℕ)) = 0 := by
    simp [localWeight, hsh]
  simp [resolveWeight, h0, h2]

/-- C6 (amended): on every nondegenerate topology (each node with an
incident edge has both intra- and inter-community incident edges) with
positive base magnitudes and half-stored `tail < head` adjacency: when
`0 < beta < 1` every resolved edge weight is strictly positive (at the
boundary values the weights of one category are `0`, see the
counterexample); for each node the summed inter-community local weight
equals exactly `beta` times its total local incident weight; and the
returned resolved weights satisfy the mixing contract in aggregate —
the summed resolved weight of all inter-community edges equals exactly
`beta` times the summed resolved weight of all edges. -/
theorem claim6_positive_weights_and_mixing (eout members : List (List ℕ))
    (beta : ℚ) (base : ℕ × ℕ → ℚ)
    (hbase : ∀ e ∈ ConvertEdgeDequeToNumpyArray eout, 0 < base e)
    (hclosed : ∀ e ∈ ConvertEdgeDequeToNumpyArray eout, e.2 < eout.length)
    (hlt : ∀ e ∈ ConvertEdgeDequeToNumpyArray eout, e.1 < e.2)
    (hnd : ∀ u, u < eout.length → incidentEdges eout u ≠ [] →
      intraEdges eout members u ≠ [] ∧ interEdges eout members u ≠ []) :
    (0 < beta → beta < 1 → ∀ e ∈ ConvertEdgeDequeToNumpyArray eout,
      0 < resolveWeight eout members beta base e) ∧
    (∀ u, u < eout.length →
      ((interEdges eout members u).map (localWeight eout members beta base u)).sum =
        beta *
          ((incidentEdges eout u).map (localWeight eout members beta base u)).sum ∧
      (incidentEdges eout u ≠ [] →
        0 < ((incidentEdges eout u).map (localWeight eout members beta base u)).sum)) ∧
    (((ConvertEdgeDequeToNumpyArray eout).filter
      (fun e => !(sharesCommunity members e.1 e.2))).map
        (resolveWeight eout members beta base)).sum =
      beta * ((ConvertEdgeDequeToNumpyArray eout).map
        (resolveWeight eout members beta base)).sum := by
  have hbaseInc : ∀ u, ∀ r ∈ incidentEdges eout u, 0 < base r := by
    intro u r hr
    exact hbase r (List.mem_filter.1 hr).1
  have hnode : ∀ u, u < eout.length →
      ((interEdges eout members u).map (localWeight eout members beta base u)).sum =
        beta * baseSum base (incidentEdges eout u) ∧
      ((incidentEdges eout u).map (localWeight eout members beta base u)).sum =
        baseSum base (incidentEdges eout u) := fun u hu =>
    node_local_sums eout members beta base u (hbaseInc u) (hnd u hu)
  refine ⟨?_, ?_, ?_⟩
  · intro hb0 hb1 e he
    have he1lt : e.1 < eout.length := (mem_edgeRows_iff.1 he).1
    have he2lt : e.2 < eout.length := hclosed e he
    have hin1 : e ∈ incidentEdges eout e.1 := mem_incidentEdges_left he
    have hin2 : e ∈ incidentEdges eout e.2 := mem_incidentEdges_right he
    rcases hnd e.1 he1lt (List.ne_nil_of_mem hin1) with ⟨ha1, he1⟩
    rcases hnd e.2 he2lt (List.ne_nil_of_mem hin2) with ⟨ha2, he2⟩
    have hl1 := localWeight_pos eout members beta base e.1 e hb0 hb1
      (hbaseInc e.1) hin1 ha1 he1
    have hl2 := localWeight_pos eout members beta base e.2 e hb0 hb1
      (hbaseInc e.2) hin2 ha2 he2
    rw [resolveWeight]
    positivity
  · intro u hu
    rcases hnode u hu with ⟨h1, h2⟩
    rw [h1, h2]
    exact ⟨rfl, fun hne => baseSum_pos (hbaseInc u) hne⟩
  · have htot := resolved_filter_sum eout members beta base
      (fun _ => true) hclosed hlt
    have hint := resolved_filter_sum eout members beta base
      (fun e => !(sharesCommunity members e.1 e.2)) hclosed hlt
    simp only [List.filter_true] at htot
    have hinterw : ∀ w, (incidentEdges eout w).filter
        (fun e => !(sharesCommunity members e.1 e.2)) = interEdges eout members w :=
      fun w => rfl
    simp only [hinterw] at hint
    have htot2 : ((List.range eout.length).map (fun u =>
        ((incidentEdges eout u).map (localWeight eout members beta base u)).sum)).sum =
        ((List.range eout.length).map
          (fun u => baseSum base (incidentEdges eout u))).sum := by
      apply congrArg List.sum
      apply List.map_congr_left
      intro u hu
      exact (hnode u (List.mem_range.1 hu)).2
    have hint2 : ((List.range eout.length).map (fun u =>
        ((interEdges eout members u).map (localWeight eout members beta base u)).sum)).sum =
        beta * ((List.range eout.length).map
          (fun u => baseSum base (incidentEdges eout u))).sum := by
      have hmc : (List.range eout.length).map (fun u =>
          ((interEdges eout members u).map (localWeight eout members beta base u)).sum) =
          (List.range eout.length).map (fun u =>
            beta * baseSum base (incidentEdges eout u)) := by
        apply List.map_congr_left
        intro u hu
        exact (hnode u (List.mem_range.1 hu)).1
      rw [hmc, List.sum_map_mul_left]
    rw [htot2] at htot
    rw [hint2] at hint
    have hfin : (((ConvertEdgeDequeToNumpyArray eout).filter
        (fun e => !(sharesCommunity members e.1 e.2))).map
          (resolveWeight eout members beta base)).sum * 2 =
        (beta * ((ConvertEdgeDequeToNumpyArray eout).map
          (resolveWeight eout members beta base)).sum) * 2 := by
      rw [hint, ← htot]
      ring
    exact mul_right_cancel₀ (by norm_num : (2 : ℚ) ≠ 0) hfin

theorem claim6_witness :
    (0 < mkRat 1 2 → mkRat 1 2 < 1 →
      ∀ e ∈ ConvertEdgeDequeToNumpyArray [[1, 2], [3], [3], []],
      0 < resolveWeight [[1, 2], [3], [3], []] [[0], [0], [1], [1]]
        (mkRat 1 2) (fun _ => 1) e) ∧
    (∀ u, u < ([[1, 2], [3], [3], []] : List (List ℕ)).length →
      ((interEdges [[1, 2], [3], [3], []] [[0], [0], [1], [1]] u).map
        (localWeight [[1, 2], [3], [3], []] [[0], [0], [1], [1]]
          (mkRat 1 2) (fun _ => 1) u)).sum =
        mkRat 1 2 *
          ((incidentEdges [[1, 2], [3], [3], []] u).map
            (localWeight [[1, 2], [3], [3], []] [[0], [0], [1], [1]]
              (mkRat 1 2) (fun _ => 1) u)).sum ∧
      (incidentEdges [[1, 2], [3], [3], []] u ≠ [] →
        0 < ((incidentEdges [[1, 2], [3], [3], []] u).map
          (localWeight [[1, 2], [3], [3], []] [[0], [0], [1], [1]]
            (mkRat 1 2) (fun _ => 1) u)).sum)) ∧
    (((ConvertEdgeDequeToNumpyArray [[1, 2], [3], [3], []]).filter
      (fun e => !(sharesCommunity [[0], [0], [1], [1]] e.1 e.2))).map
        (resolveWeight [[1, 2], [3], [3], []] [[0], [0], [1], [1]]
          (mkRat 1 2) (fun _ => 1))).sum =
      mkRat 1 2 * ((ConvertEdgeDequeToNumpyArray [[1, 2], [3], [3], []]).map
        (resolveWeight [[1, 2], [3], [3], []] [[0], [0], [1], [1]]
          (mkRat 1 2) (fun _ => 1))).sum :=
  claim6_positive_weights_and_mixing [[1, 2], [3], [3], []]
    [[0], [0], [1], [1]] (mkRat 1 2) (fun _ => 1)
    (by decide) (by decide) (by decide) (by decide)

theorem roundF32_between_denormals :
    roundF32 ((3 : ℚ) / 2 ^ 151) = (2 : ℚ) ^ (-(149 : ℤ)) := by
  have hlog : Int.log 2 ((3 : ℚ) / 2 ^ 151) = -150 := by
    apply intLog_eq_of_bounds
    · norm_num
    · norm_num
  have hs : f32scale ((3 : ℚ) / 2 ^ 151) = -149 := by
    unfold f32scale
    rw [hlog]
    decide
  have hx : ((3 : ℚ) / 2 ^ 151) / (2 : ℚ) ^ (-(149 : ℤ)) = 3 / 4 := by norm_num
  have hfl : Int.floor ((3 : ℚ) / 4) = 0 := by
    apply Int.floor_eq_zero_iff.2
    rw [Set.mem_Ico]
    norm_num
  have hr : rhe ((3 : ℚ) / 4) = 1 := by
    unfold rhe
    rw [hfl]
    rw [if_neg (by push_cast; norm_num), if_pos (by push_cast; norm_num)]
    decide
  unfold roundF32
  rw [if_neg (by norm_num), if_neg (by norm_num)]
  unfold roundF32pos
  rw [hs, hx, hr]
  norm_num

theorem weight_entries_are_casts {Wout : List (List (ℕ × ℚ))}
    {Eout : List (List ℕ)} {ws : List ℚ}
    (h : ConvertWeightMapToNumpyArray Wout Eout = some ws) :
    ∀ i, ws.get? i = (((ConvertEdgeDequeToNumpyArray Eout).get? i).bind
      (lookupWeight Wout)).map roundF32 := by
  rw [ConvertWeightMapToNumpyArray] at h
  rcases Option.map_eq_some'.1 h with ⟨ws0, hgo, rfl⟩
  intro i
  rw [List.get?_map, weightsGo_get? hgo i]

/-- C8 counterexample: a positive core weight strictly below the float32
denormal range (below `2 ^ (-149)`, the smallest positive denormal) is
not always surfaced as `0` — the double `3 / 2 ^ 151` lies below the
denormal range yet the conversion surfaces the nonzero value
`2 ^ (-149)` for it, because the narrowing cast rounds to nearest. -/
theorem claim8_counterexample :
    0 < (3 : ℚ) / 2 ^ 151 ∧
    (3 : ℚ) / 2 ^ 151 < (2 : ℚ) ^ (-(149 : ℤ)) ∧
    ConvertWeightMapToNumpyArray [[(1, (3 : ℚ) / 2 ^ 151)], []] [[1], []] =
      some [(2 : ℚ) ^ (-(149 : ℤ))] ∧
    (2 : ℚ) ^ (-(149 : ℤ)) ≠ 0 := by
  refine ⟨by norm_num, by norm_num, ?_, by positivity⟩
  have hgo : weightsGo [[(1, (3 : ℚ) / 2 ^ 151)], []]
      (ConvertEdgeDequeToNumpyArray [[1], []]) = some [(3 : ℚ) / 2 ^ 151] := rfl
  rw [ConvertWeightMapToNumpyArray, hgo]
  simp [roundF32_between_denormals]

/-- C8 (amended): each surfaced weight is the IEEE-754
round-to-nearest-even single-precision narrowing of the double computed
by the core, so the surfaced weights carry only float32 precision
(24-bit significand, exponent at least `-149`); a positive double at or
below `2 ^ (-150)` — half the smallest positive denormal — is surfaced
as `0`, while positive doubles between `2 ^ (-150)` and `2 ^ (-149)`
round up to the smallest denormal rather than to `0`. -/
theorem claim8_weights_are_float32_casts :
    (∀ (Wout : List (List (ℕ × ℚ))) (Eout : List (List ℕ)) (ws : List ℚ),
      ConvertWeightMapToNumpyArray Wout Eout = some ws →
      ∀ i, ws.get? i = (((ConvertEdgeDequeToNumpyArray Eout).get? i).bind
        (lookupWeight Wout)).map roundF32) ∧
    (∀ q : ℚ, 0 < q → q ≤ (2 : ℚ) ^ (-(150 : ℤ)) → roundF32 q = 0) ∧
    (∀ q : ℚ, ∃ m s : ℤ, roundF32 q = (m : ℚ) * (2 : ℚ) ^ s ∧
      m.natAbs ≤ 2 ^ 24 ∧ -149 ≤ s) :=
  ⟨fun _ _ _ h => weight_entries_are_casts h,
    roundF32_underflow, roundF32_representable⟩

theorem claim8_witness :
    roundF32 ((2 : ℚ) ^ (-(151 : ℤ))) = 0 :=
  claim8_weights_are_float32_casts.2.1 ((2 : ℚ) ^ (-(151 : ℤ)))
    (by positivity) (by norm_num)
